import Mathlib

/-!
Verification of the work-stealing scheduler in
src/advanced_cohort_1/work_stealing/src/main.rs.

The development shallowly embeds the scheduler: the mutex-guarded VecDeque of
the WorkStealingDeque together with its AtomicUsize size counter becomes a pair
of a task list and a Nat; one iteration of the Worker::run loop becomes a pure
function on the data the worker reads and writes, returning the ordered list of
its observable effects; and a full concurrent run of
WorkStealingScheduler::run becomes a labelled transition system whose atomic
steps are the serialized queue operations and counter updates of the worker
threads.  Queue sizes are bounded by the number of add_task calls, so usize
overflow of the counters is unreachable and they are modelled as plain Nat.

The file is organized as definitions first and theorems second.
-/

namespace WorkStealing

/-- Lifecycle states of a task (enum TaskState in main.rs, lines 19-25). -/
inductive TaskState where
  | Ready
  | Running
  | Completed
  | Stolen
deriving DecidableEq

/-- A task (struct Task, lines 11-17): identity, advisory priority, simulated
cost in work units (milliseconds of sleep), and lifecycle state. -/
structure Task where
  id : Nat
  priority : Nat
  work_units : Nat
  state : TaskState
deriving DecidableEq

/-- The work-stealing deque (struct WorkStealingDeque, lines 31-34): the
mutex-guarded VecDeque of tasks together with the separately maintained atomic
size counter.  The front of the VecDeque is the head of the list and the back
is the last element.  The size field models the AtomicUsize. -/
structure WorkStealingDeque where
  tasks : List Task
  size : Nat
deriving DecidableEq

namespace WorkStealingDeque

/-- WorkStealingDeque::new (lines 37-42): empty queue, size counter zero. -/
def new : WorkStealingDeque := ⟨[], 0⟩

/-- WorkStealingDeque::push (lines 45-49): append the task at the back and
increment the size counter. -/
def push (d : WorkStealingDeque) (t : Task) : WorkStealingDeque :=
  ⟨d.tasks ++ [t], d.size + 1⟩

/-- WorkStealingDeque::pop (lines 52-59): remove the back element if present
and decrement the size counter exactly when a task was removed.  Returns the
removed task (if any) and the queue afterwards. -/
def pop (d : WorkStealingDeque) : Option Task × WorkStealingDeque :=
  match d.tasks.getLast? with
  | some t => (some t, ⟨d.tasks.dropLast, d.size - 1⟩)
  | none => (none, d)

/-- WorkStealingDeque::steal (lines 62-69): remove the front element if present
and decrement the size counter exactly when a task was removed.  Returns the
removed task (if any) and the queue afterwards. -/
def steal (d : WorkStealingDeque) : Option Task × WorkStealingDeque :=
  match d.tasks with
  | [] => (none, d)
  | t :: rest => (some t, ⟨rest, d.size - 1⟩)

/-- The structural invariant from the specification: the size counter equals
the number of tasks physically present in the deque. -/
def inv (d : WorkStealingDeque) : Prop := d.size = d.tasks.length

instance (d : WorkStealingDeque) : Decidable d.inv := by
  unfold inv; infer_instance

end WorkStealingDeque

/-- One observable effect of the worker loop: a write of a task state, a timed
block (thread sleep for the given milliseconds), or an atomic increment of one
of the shared counters. -/
inductive Event where
  | setState (s : TaskState)
  | sleep (ms : Nat)
  | incCompleted
  | incStolen
deriving DecidableEq

/-- The data a Worker (struct Worker, lines 78-85) reads and writes during one
iteration of Worker::run: its id, its local queue, the list other_queues of all
peer queues, and the current values of the three shared atomic counters. -/
structure Worker where
  id : Nat
  local_queue : WorkStealingDeque
  other_queues : List WorkStealingDeque
  tasks_completed : Nat
  tasks_stolen : Nat
  total_system_tasks : Nat
deriving DecidableEq

/-- Worker::work_exists_in_system (lines 215-217): some peer queue reports a
size greater than zero. -/
def Worker.work_exists_in_system (w : Worker) : Bool :=
  w.other_queues.any (fun q => q.size > 0)

/-- Worker::all_work_complete (lines 185-192): completed + stolen has reached
total and no work exists in any peer queue. -/
def Worker.all_work_complete (w : Worker) : Bool :=
  decide (w.total_system_tasks ≤ w.tasks_completed + w.tasks_stolen) &&
    !w.work_exists_in_system

/-- Worker::execute_task (lines 194-213): sleep for work_units milliseconds,
set the task state to Completed, then increment the shared completed counter.
Returns the updated task and the ordered list of effects; the console print is
omitted. -/
def execute_task (t : Task) : Task × List Event :=
  ({ t with state := TaskState.Completed },
   [Event.sleep t.work_units, Event.setState TaskState.Completed, Event.incCompleted])

/-- The hardcoded imbalance threshold min_imbalance of Worker::steal_task
(line 149). -/
def min_imbalance : Nat := 0

/-- The candidate loop of Worker::steal_task (lines 168-181) over a list of
peer queues: for each queue in order, if its observed size exceeds the observed
size of the local queue by more than min_imbalance, attempt a steal from its
front; a successful steal stops the scan and returns the task together with the
updated queue list, and a failed attempt or a failed imbalance check moves on
to the next candidate. -/
def stealScan (local_queue : WorkStealingDeque) :
    List WorkStealingDeque → Option (Task × List WorkStealingDeque)
  | [] => none
  | q :: rest =>
    if local_queue.size + min_imbalance < q.size then
      match q.steal with
      | (some t, q1) => some (t, q1 :: rest)
      | (none, q1) =>
        match stealScan local_queue rest with
        | some (t, rest1) => some (t, q1 :: rest1)
        | none => none
    else
      match stealScan local_queue rest with
      | some (t, rest1) => some (t, q :: rest1)
      | none => none

/-- Worker::steal_task (lines 141-183).  Worker 0 returns none immediately and
touches no queue.  Every other worker first tries the head of other_queues
(which the scheduler wiring makes the queue of worker 0) under the imbalance
check, and on failure scans the remaining peer queues in order under the same
check.  Returns the stolen task and the updated other_queues. -/
def steal_task (id : Nat) (local_queue : WorkStealingDeque)
    (other_queues : List WorkStealingDeque) : Option (Task × List WorkStealingDeque) :=
  if id = 0 then none
  else
    match other_queues with
    | [] => none
    | q0 :: rest =>
      if local_queue.size + min_imbalance < q0.size then
        match q0.steal with
        | (some t, q1) => some (t, q1 :: rest)
        | (none, q1) =>
          match stealScan local_queue rest with
          | some (t, rest1) => some (t, q1 :: rest1)
          | none => none
      else
        match stealScan local_queue rest with
        | some (t, rest1) => some (t, q0 :: rest1)
        | none => none

/-- The steal heuristic as the specification words it: candidates are tried in
list order, a steal from a candidate is attempted only if the observed size of
the candidate strictly exceeds the size of the local queue plus the imbalance
threshold, and the scan stops at the first candidate passing the check. -/
def stealSpecOrder (local_queue : WorkStealingDeque) :
    List WorkStealingDeque → Option (Task × List WorkStealingDeque)
  | [] => none
  | q :: rest =>
    if local_queue.size + min_imbalance < q.size then
      match q.steal with
      | (some t, q1) => some (t, q1 :: rest)
      | (none, _) => none
    else
      match stealSpecOrder local_queue rest with
      | some (t, rest1) => some (t, q :: rest1)
      | none => none

/-- Outcome of one iteration of the Worker::run loop: the worker exits the
loop, or processes one task (yielding the post-iteration view of the worker,
the task as left after execution, and the effect events of the iteration in
order), or sleeps for the 50 ms backoff. -/
inductive IterResult where
  | exited
  | continued (w : Worker) (t : Task) (events : List Event)
  | slept
deriving DecidableEq

/-- One iteration of the loop of Worker::run (lines 108-138): exit if
all_work_complete holds; otherwise a worker with nonzero id and an empty local
queue attempts a steal, and a stolen task is marked Stolen, the shared stolen
counter is incremented, and the task is executed; otherwise a task popped from
the back of the local queue is executed; otherwise the worker sleeps. -/
def runIteration (w : Worker) : IterResult :=
  if w.all_work_complete then IterResult.exited
  else
    match (if w.id ≠ 0 ∧ w.local_queue.size = 0
           then steal_task w.id w.local_queue w.other_queues
           else none) with
    | some (t, others1) =>
      IterResult.continued
        { w with other_queues := others1,
                 tasks_stolen := w.tasks_stolen + 1,
                 tasks_completed := w.tasks_completed + 1 }
        (execute_task { t with state := TaskState.Stolen }).1
        (Event.setState TaskState.Stolen :: Event.incStolen ::
          (execute_task { t with state := TaskState.Stolen }).2)
    | none =>
      match w.local_queue.pop with
      | (some t, lq1) =>
        IterResult.continued
          { w with local_queue := lq1, tasks_completed := w.tasks_completed + 1 }
          (execute_task t).1 (execute_task t).2
      | (none, _) => IterResult.slept

/-- The peer wiring of WorkStealingScheduler::new (lines 248-253): the queue
indices a given worker sees as other_queues, namely all indices except its own,
in index order. -/
def otherQueueIdx (n worker_id : Nat) : List Nat :=
  (List.range n).filter (fun idx => idx != worker_id)

/-!
The interleaved model of WorkStealingScheduler::run (lines 282-297): one OS
thread per worker runs the Worker::run loop, every queue operation is
serialized by the queue mutex, and every counter update is one atomic
fetch-add.  States carry the task-id contents of every queue (index w is the
local queue of worker w, the head of the list is the front of the VecDeque),
the loop status of every worker thread, and the three shared counters.  Under
the size invariant of the deques, the size() observed for queue j equals the
length of list entry j, so emptiness checks are list emptiness checks here.
-/

/-- Status of one worker thread inside WorkStealingScheduler::run: in the loop
between actions, executing a task with the given id, or exited from the loop. -/
inductive WStatus where
  | idle
  | executing (tid : Nat)
  | exited
deriving DecidableEq

/-- Global state of a run of the scheduler. -/
structure SchedState where
  queues : List (List Nat)
  workers : List WStatus
  completed : Nat
  stolen : Nat
  total : Nat
deriving DecidableEq

/-- The all_work_complete condition of worker w read on the global state: the
sum of the completed and stolen counters has reached total, and every queue
other than the own queue of w (exactly the other_queues of w) is empty. -/
def SchedState.exitCond (s : SchedState) (w : Nat) : Prop :=
  s.total ≤ s.completed + s.stolen ∧
  ∀ j, j < s.queues.length → j ≠ w → s.queues[j]? = some []

instance (s : SchedState) (w : Nat) : Decidable (s.exitCond w) := by
  unfold SchedState.exitCond; infer_instance

/-- Labels of the atomic actions of a run: worker w pops task tid from its own
queue, worker w steals task tid from the queue of worker src, worker w finishes
executing task tid, worker w exits its loop. -/
inductive Label where
  | popL (w tid : Nat)
  | stealL (w src tid : Nat)
  | finishL (w tid : Nat)
  | exitL (w : Nat)
deriving DecidableEq

/-- One atomic interleaved action of the worker loops (Worker::run lines
104-139).  pop: an idle worker removes the back task of its own queue and
starts executing it (lines 131-134).  steal: an idle worker with nonzero id and
an empty local queue removes the front task of some peer queue, increments the
stolen counter, and starts executing the task (lines 119-127; which peer the
heuristic picks depends on sizes that may be stale by the time the steal
happens, so the choice of a non-empty peer is left nondeterministic).  finish:
an executing worker completes its task and increments the completed counter
(execute_task, lines 194-213).  exitL: an idle worker whose all_work_complete
check holds leaves the loop (lines 110-116). -/
inductive Step : SchedState → Label → SchedState → Prop where
  | pop (s : SchedState) (w tid : Nat) (front : List Nat)
      (hidle : s.workers[w]? = some WStatus.idle)
      (hq : s.queues[w]? = some (front ++ [tid])) :
      Step s (Label.popL w tid)
        { s with queues := s.queues.set w front,
                 workers := s.workers.set w (WStatus.executing tid) }
  | steal (s : SchedState) (w src tid : Nat) (rest : List Nat)
      (hidle : s.workers[w]? = some WStatus.idle)
      (hw0 : w ≠ 0)
      (hempty : s.queues[w]? = some [])
      (hne : src ≠ w)
      (hsrc : s.queues[src]? = some (tid :: rest)) :
      Step s (Label.stealL w src tid)
        { s with queues := s.queues.set src rest,
                 workers := s.workers.set w (WStatus.executing tid),
                 stolen := s.stolen + 1 }
  | finish (s : SchedState) (w tid : Nat)
      (hexec : s.workers[w]? = some (WStatus.executing tid)) :
      Step s (Label.finishL w tid)
        { s with workers := s.workers.set w WStatus.idle,
                 completed := s.completed + 1 }
  | exitLoop (s : SchedState) (w : Nat)
      (hidle : s.workers[w]? = some WStatus.idle)
      (hcond : s.exitCond w) :
      Step s (Label.exitL w) { s with workers := s.workers.set w WStatus.exited }

/-- A finite interleaved execution: a sequence of labelled atomic steps. -/
inductive Trace : SchedState → List Label → SchedState → Prop where
  | nil (s : SchedState) : Trace s [] s
  | cons {s s1 s2 : SchedState} {l : Label} {tr : List Label} :
      Step s l s1 → Trace s1 tr s2 → Trace s (l :: tr) s2

/-- The state at the start of WorkStealingScheduler::run: all worker threads
enter their loops, completed and stolen are zero (lines 229-232), and total
equals the number of submitted tasks, because add_task increments total once
per task pushed into a queue before run starts (lines 276-280). -/
def SchedInit (s : SchedState) : Prop :=
  s.workers = List.replicate s.queues.length WStatus.idle ∧
  s.completed = 0 ∧ s.stolen = 0 ∧ s.total = s.queues.flatten.length

/-- Ids of the tasks whose execution finished during a trace, in completion
order. -/
def finishedIds (tr : List Label) : List Nat :=
  tr.filterMap (fun l => match l with | Label.finishL _ tid => some tid | _ => none)

/-- Ids of the tasks currently held mid-execution by the worker threads. -/
def heldIds (ws : List WStatus) : List Nat :=
  ws.filterMap (fun st => match st with | WStatus.executing tid => some tid | _ => none)

/-- The multiset of task ids present across a list of queues. -/
def queuesM (l : List (List Nat)) : Multiset Nat :=
  (l.map (fun q => (q : Multiset Nat))).sum

/-- The inductive invariant of the interleaved run, relative to the submitted
multiset M0, the worker and queue count n, the fixed total, and the list fin of
task ids finished so far.  conserve says every submitted task is in a queue,
mid-execution, or finished; hexited says a worker exits only once every queue
it can observe is and stays empty; hsum records that the counter clause of the
exit check held when some worker exited; hstolen1 holds because a single worker
has no peers to steal from. -/
structure SchedInv (M0 : Multiset Nat) (n total0 : Nat) (fin : List Nat)
    (s : SchedState) : Prop where
  qlen : s.queues.length = n
  wlen : s.workers.length = n
  htotal : s.total = total0
  conserve : M0 = (fin : Multiset Nat) + (heldIds s.workers : Multiset Nat) + queuesM s.queues
  hcompleted : s.completed = fin.length
  hexited : ∀ i : Nat, s.workers[i]? = some WStatus.exited →
      ∀ j, j < s.queues.length → j ≠ i → s.queues[j]? = some []
  hstolen1 : n ≤ 1 → s.stolen = 0
  hsum : (∃ i : Nat, s.workers[i]? = some WStatus.exited) → s.total ≤ s.completed + s.stolen

/-!
Concrete instances used by witnesses and counterexamples.
-/

/-- A concrete queue satisfying the size invariant. -/
def dqOne : WorkStealingDeque := ⟨[⟨5, 0, 7, TaskState.Ready⟩], 1⟩

/-- A concrete two-element queue satisfying the size invariant. -/
def dqTwo : WorkStealingDeque := ⟨[⟨4, 0, 1, TaskState.Ready⟩, ⟨8, 0, 2, TaskState.Ready⟩], 2⟩

/-- Task A of the LIFO/FIFO contract scenario. -/
def taskA : Task := ⟨1, 0, 10, TaskState.Ready⟩

/-- Task B of the LIFO/FIFO contract scenario. -/
def taskB : Task := ⟨2, 1, 20, TaskState.Ready⟩

/-- Task C of the LIFO/FIFO contract scenario. -/
def taskC : Task := ⟨3, 2, 30, TaskState.Ready⟩

/-- The queue obtained by pushing A, B, C in that order onto a fresh queue. -/
def queueABC : WorkStealingDeque :=
  ((WorkStealingDeque.new.push taskA).push taskB).push taskC

/-- A ready task processed locally by worker 0. -/
def localT : Task := ⟨3, 0, 5, TaskState.Ready⟩

/-- Worker 0 holding one local task, with one task outstanding in total. -/
def localW : Worker := ⟨0, ⟨[localT], 1⟩, [], 0, 0, 1⟩

/-- The view of localW after it pops and executes its local task. -/
def localW1 : Worker := ⟨0, ⟨[], 0⟩, [], 1, 0, 1⟩

/-- A ready task used to evaluate execute_task concretely. -/
def readyTask : Task := ⟨0, 0, 5, TaskState.Ready⟩

/-- A worker used to exercise the local execution path of the loop. -/
def plainRunW : Worker := ⟨2, ⟨[⟨6, 1, 9, TaskState.Ready⟩], 1⟩, [], 0, 0, 3⟩

/-- The view of plainRunW after its iteration. -/
def plainRunW1 : Worker := ⟨2, ⟨[], 0⟩, [], 1, 0, 3⟩

/-- A worker whose exit check passes while its own local queue still holds a
task: completed and stolen both count the same stolen task, so their sum
reaches total although one task was never executed, and the peer queues are all
empty. -/
def exitingWorker : Worker :=
  ⟨1, ⟨[⟨9, 0, 4, TaskState.Ready⟩], 1⟩, [WorkStealingDeque.new], 1, 1, 2⟩

/-- A concrete peer-queue list for the steal heuristic: one non-empty peer. -/
def stealQs : List WorkStealingDeque := [⟨[⟨9, 0, 2, TaskState.Ready⟩], 1⟩]

/-- Conclusion of the steal-order claim at a worker id, a worker count, a local
queue and a peer-queue list: the peer index list of the scheduler wiring puts
index 0 first, is in increasing index order, and skips the worker itself;
min_imbalance is 0; steal_task agrees with the first-match heuristic
stealSpecOrder; a successful steal takes the front task of the first candidate
whose size strictly exceeds the local size plus min_imbalance, all earlier
candidates failing the check; and if no candidate passes the check no steal
happens. -/
def StealOrderConcl (wid n : Nat) (lq : WorkStealingDeque)
    (qs : List WorkStealingDeque) : Prop :=
  ((0 < wid → wid < n → (otherQueueIdx n wid).head? = some 0) ∧
    List.Sorted (· < ·) (otherQueueIdx n wid) ∧
    wid ∉ otherQueueIdx n wid) ∧
  min_imbalance = 0 ∧
  steal_task wid lq qs = stealSpecOrder lq qs ∧
  (∀ (t : Task) (qs1 : List WorkStealingDeque),
    stealSpecOrder lq qs = some (t, qs1) →
    ∃ (j : Nat) (qj : WorkStealingDeque), qs[j]? = some qj ∧
      lq.size + min_imbalance < qj.size ∧
      (∀ (k : Nat) (qk : WorkStealingDeque), k < j → qs[k]? = some qk →
        ¬ lq.size + min_imbalance < qk.size) ∧
      qj.tasks.head? = some t ∧
      qs1 = qs.set j qj.steal.2) ∧
  (stealSpecOrder lq qs = none →
    ∀ q ∈ qs, ¬ lq.size + min_imbalance < q.size)

/-- Initial state of a two-worker run where one steal inflates the counter sum:
worker 0 owns tasks 10 and 20, worker 1 owns nothing. -/
def leakInit : SchedState := ⟨[[10, 20], []], [WStatus.idle, WStatus.idle], 0, 0, 2⟩

/-- leakInit after worker 1 steals task 10 from worker 0. -/
def leakMid1 : SchedState := ⟨[[20], []], [WStatus.idle, WStatus.executing 10], 0, 1, 2⟩

/-- leakMid1 after worker 1 finishes task 10. -/
def leakMid2 : SchedState := ⟨[[20], []], [WStatus.idle, WStatus.idle], 1, 1, 2⟩

/-- leakMid2 after worker 0 exits its loop: its own queue still holds task 20,
yet its exit check passed because completed + stolen = 2 reaches total and its
only peer queue is empty. -/
def leakFinal : SchedState := ⟨[[20], []], [WStatus.exited, WStatus.idle], 1, 1, 2⟩

/-- Initial state of a one-worker run with a single task. -/
def soloInit : SchedState := ⟨[[7]], [WStatus.idle], 0, 0, 1⟩

/-- soloInit after worker 0 pops task 7. -/
def soloMid1 : SchedState := ⟨[[]], [WStatus.executing 7], 0, 0, 1⟩

/-- soloMid1 after worker 0 finishes task 7. -/
def soloMid2 : SchedState := ⟨[[]], [WStatus.idle], 1, 0, 1⟩

/-- soloMid2 after worker 0 exits. -/
def soloFinal : SchedState := ⟨[[]], [WStatus.exited], 1, 0, 1⟩

/-- Initial state of a two-worker run in which worker 1 steals task 5. -/
def stealDemoInit : SchedState := ⟨[[5], []], [WStatus.idle, WStatus.idle], 0, 0, 1⟩

/-- stealDemoInit after worker 1 steals task 5 from worker 0. -/
def stealDemoNext : SchedState := ⟨[[], []], [WStatus.idle, WStatus.executing 5], 0, 1, 1⟩

end WorkStealing

namespace WorkStealing

/-- C8: the invariant that size() equals the number of tasks physically present
holds for a fresh queue and is preserved by every push, pop and steal. -/
theorem deque_size_invariant (d : WorkStealingDeque) (t : Task) (hd : d.inv) :
    WorkStealingDeque.new.inv ∧ (d.push t).inv ∧ d.pop.2.inv ∧ d.steal.2.inv := by
  refine ⟨by simp [WorkStealingDeque.new, WorkStealingDeque.inv], ?_, ?_, ?_⟩
  · simp [WorkStealingDeque.push, WorkStealingDeque.inv] at hd ⊢
    omega
  · unfold WorkStealingDeque.pop
    split
    · next t0 hlast =>
      have hne : d.tasks ≠ [] := by
        intro he
        rw [he] at hlast
        simp at hlast
      have hlen : 1 ≤ d.tasks.length := List.length_pos.mpr hne
      simp only [WorkStealingDeque.inv] at hd ⊢
      simp only [List.length_dropLast]
      omega
    · exact hd
  · unfold WorkStealingDeque.steal
    split
    · exact hd
    · next t0 rest heq =>
      simp only [WorkStealingDeque.inv] at hd ⊢
      rw [heq] at hd
      simp at hd
      omega

/-- Witness for C8 at a concrete queue. -/
theorem deque_size_invariant_witness :
    dqOne.inv ∧
    (WorkStealingDeque.new.inv ∧ (dqOne.push ⟨6, 1, 8, TaskState.Ready⟩).inv ∧
      dqOne.pop.2.inv ∧ dqOne.steal.2.inv) :=
  ⟨by decide, deque_size_invariant dqOne ⟨6, 1, 8, TaskState.Ready⟩ (by decide)⟩

/-- C9: after pushing A, B, C, repeated pops from the back yield C, B, A and
leave the queue empty, while a steal from the same pre-state yields A first. -/
theorem lifo_fifo_contract :
    (queueABC.pop.1 = some taskC ∧
     queueABC.pop.2.pop.1 = some taskB ∧
     queueABC.pop.2.pop.2.pop.1 = some taskA ∧
     queueABC.pop.2.pop.2.pop.2.tasks = []) ∧
    queueABC.steal.1 = some taskA := by decide

/-- C10: under the size invariant, pop returns the back element, removes it and
decrements the size by one on a non-empty queue, and returns none leaving the
queue unchanged on an empty queue; steal does the same at the front. -/
theorem pop_steal_contract (d : WorkStealingDeque) (hd : d.inv) :
    (d.tasks = [] → d.pop = (none, d) ∧ d.steal = (none, d)) ∧
    (d.tasks ≠ [] →
      d.pop.1 = d.tasks.getLast? ∧
      d.pop.2.tasks = d.tasks.dropLast ∧
      d.pop.2.size + 1 = d.size ∧
      d.steal.1 = d.tasks.head? ∧
      d.steal.2.tasks = d.tasks.tail ∧
      d.steal.2.size + 1 = d.size) := by
  constructor
  · intro he
    constructor
    · unfold WorkStealingDeque.pop
      rw [he]
      rfl
    · unfold WorkStealingDeque.steal
      rw [he]
  · intro hne
    have hlen : 1 ≤ d.tasks.length := List.length_pos.mpr hne
    have hsize : 1 ≤ d.size := by
      unfold WorkStealingDeque.inv at hd
      omega
    have hlast : d.tasks.getLast? = some (d.tasks.getLast hne) :=
      List.getLast?_eq_getLast d.tasks hne
    refine ⟨?_, ?_, ?_, ?_, ?_, ?_⟩
    · unfold WorkStealingDeque.pop
      rw [hlast]
    · unfold WorkStealingDeque.pop
      rw [hlast]
    · unfold WorkStealingDeque.pop
      rw [hlast]
      simp only []
      omega
    · unfold WorkStealingDeque.steal
      cases h : d.tasks with
      | nil => exact absurd h hne
      | cons a l => simp
    · unfold WorkStealingDeque.steal
      cases h : d.tasks with
      | nil => exact absurd h hne
      | cons a l => simp
    · unfold WorkStealingDeque.steal
      cases h : d.tasks with
      | nil => exact absurd h hne
      | cons a l => simp; omega

/-- Witness for C10 at a concrete queue. -/
theorem pop_steal_contract_witness :
    dqTwo.inv ∧
    ((dqTwo.tasks = [] → dqTwo.pop = (none, dqTwo) ∧ dqTwo.steal = (none, dqTwo)) ∧
      (dqTwo.tasks ≠ [] →
        dqTwo.pop.1 = dqTwo.tasks.getLast? ∧
        dqTwo.pop.2.tasks = dqTwo.tasks.dropLast ∧
        dqTwo.pop.2.size + 1 = dqTwo.size ∧
        dqTwo.steal.1 = dqTwo.tasks.head? ∧
        dqTwo.steal.2.tasks = dqTwo.tasks.tail ∧
        dqTwo.steal.2.size + 1 = dqTwo.size)) :=
  ⟨by decide, pop_steal_contract dqTwo (by decide)⟩

/-- Inversion of the loop iteration: a processed task was obtained either by a
steal (for a worker with nonzero id and empty local queue) or by a local pop,
and in both cases the iteration result is determined by the source code of
Worker::run and Worker::execute_task. -/
theorem runIteration_continued (w w1 : Worker) (t : Task) (evs : List Event)
    (h : runIteration w = IterResult.continued w1 t evs) :
    (∃ (t0 : Task) (others1 : List WorkStealingDeque),
      steal_task w.id w.local_queue w.other_queues = some (t0, others1) ∧
      w.id ≠ 0 ∧ w.local_queue.size = 0 ∧
      t = { t0 with state := TaskState.Completed } ∧
      w1 = { w with
              other_queues := others1,
              tasks_stolen := w.tasks_stolen + 1,
              tasks_completed := w.tasks_completed + 1 } ∧
      evs = [Event.setState TaskState.Stolen, Event.incStolen, Event.sleep t0.work_units,
             Event.setState TaskState.Completed, Event.incCompleted]) ∨
    (∃ (t0 : Task) (lq1 : WorkStealingDeque),
      w.local_queue.pop = (some t0, lq1) ∧
      t = { t0 with state := TaskState.Completed } ∧
      w1 = { w with local_queue := lq1, tasks_completed := w.tasks_completed + 1 } ∧
      evs = [Event.sleep t0.work_units, Event.setState TaskState.Completed,
             Event.incCompleted]) := by
  unfold runIteration at h
  by_cases hc : w.all_work_complete = true
  · rw [if_pos hc] at h
    exact IterResult.noConfusion h
  · rw [if_neg hc] at h
    by_cases hcond : w.id ≠ 0 ∧ w.local_queue.size = 0
    · rw [if_pos hcond] at h
      cases hsc : steal_task w.id w.local_queue w.other_queues with
      | some p =>
        obtain ⟨t0, others1⟩ := p
        rw [hsc] at h
        left
        injection h with h1 h2 h3
        exact ⟨t0, others1, rfl, hcond.1, hcond.2, h2.symm, h1.symm, h3.symm⟩
      | none =>
        rw [hsc] at h
        cases hp : w.local_queue.pop with
        | mk o lq1 =>
          rw [hp] at h
          cases o with
          | some t0 =>
            right
            injection h with h1 h2 h3
            exact ⟨t0, lq1, rfl, h2.symm, h1.symm, h3.symm⟩
          | none => exact IterResult.noConfusion h
    · rw [if_neg hcond] at h
      cases hp : w.local_queue.pop with
      | mk o lq1 =>
        rw [hp] at h
        cases o with
        | some t0 =>
          right
          injection h with h1 h2 h3
          exact ⟨t0, lq1, rfl, h2.symm, h1.symm, h3.symm⟩
        | none => exact IterResult.noConfusion h

/-- C1: all_work_complete is true exactly when completed + stolen has reached
total and every peer queue has size 0, and one iteration of the worker loop
exits exactly when all_work_complete is true. -/
theorem termination_check (w : Worker) :
    (w.all_work_complete = true ↔
      (w.total_system_tasks ≤ w.tasks_completed + w.tasks_stolen ∧
        ∀ q ∈ w.other_queues, q.size = 0)) ∧
    (runIteration w = IterResult.exited ↔ w.all_work_complete = true) := by
  constructor
  · unfold Worker.all_work_complete Worker.work_exists_in_system
    constructor
    · intro h
      rw [Bool.and_eq_true] at h
      obtain ⟨h1, h2⟩ := h
      refine ⟨by simpa using h1, ?_⟩
      intro q hq
      rw [Bool.not_eq_true', List.any_eq_false] at h2
      have := h2 q hq
      simpa using this
    · intro h
      obtain ⟨h1, h2⟩ := h
      rw [Bool.and_eq_true]
      refine ⟨by simpa using h1, ?_⟩
      rw [Bool.not_eq_true', List.any_eq_false]
      intro q hq
      simp [h2 q hq]
  · unfold runIteration
    split
    · next hc => simp [hc]
    · next hc =>
      rw [Bool.not_eq_true] at hc
      constructor
      · intro hx
        exfalso
        revert hx
        split
        · exact fun hx => by cases hx
        · split
          · exact fun hx => by cases hx
          · exact fun hx => by cases hx
      · intro hx
        rw [hx] at hc
        cases hc

/-- C3 counterexample: worker 0 processes its local task 3, the iteration
increments the completed counter, but the stolen counter is not incremented for
this task, neither in the event list nor in the counter value. -/
theorem local_task_no_stolen_increment :
    runIteration localW =
      IterResult.continued localW1 ⟨3, 0, 5, TaskState.Completed⟩
        [Event.sleep 5, Event.setState TaskState.Completed, Event.incCompleted] ∧
    ([Event.sleep 5, Event.setState TaskState.Completed,
        Event.incCompleted].count Event.incStolen = 0 ∧
      localW1.tasks_completed = localW.tasks_completed + 1 ∧
      localW1.tasks_stolen = localW.tasks_stolen) := by decide

/-- C3 (amended): every task processed by an iteration of the worker loop
increments the completed counter exactly once, by the worker that finishes
executing it; the stolen counter is incremented exactly once for a task
obtained by stealing (by the stealing worker, which is also the worker that
executes and finishes it) and is not incremented for a task popped from the
local queue. -/
theorem per_task_counter_increments (w w1 : Worker) (t : Task) (evs : List Event)
    (h : runIteration w = IterResult.continued w1 t evs) :
    evs.count Event.incCompleted = 1 ∧
    w1.tasks_completed = w.tasks_completed + 1 ∧
    ((evs.count Event.incStolen = 1 ∧ w1.tasks_stolen = w.tasks_stolen + 1 ∧
        Event.setState TaskState.Stolen ∈ evs) ∨
     (evs.count Event.incStolen = 0 ∧ w1.tasks_stolen = w.tasks_stolen ∧
        Event.setState TaskState.Stolen ∉ evs)) := by
  rcases runIteration_continued w w1 t evs h with
    ⟨t0, others1, hsteal, hid, hsz, ht, hw1, hevs⟩ | ⟨t0, lq1, hpop, ht, hw1, hevs⟩
  · subst hw1
    subst hevs
    refine ⟨by simp [List.count_cons], by simp, Or.inl ⟨by simp [List.count_cons], by simp, by simp⟩⟩
  · subst hw1
    subst hevs
    refine ⟨by simp [List.count_cons], by simp, Or.inr ⟨by simp [List.count_cons], by simp, by simp⟩⟩

/-- Witness for the amended C3 at a concrete local execution. -/
theorem per_task_counter_increments_witness :
    runIteration plainRunW =
      IterResult.continued plainRunW1 ⟨6, 1, 9, TaskState.Completed⟩
        [Event.sleep 9, Event.setState TaskState.Completed, Event.incCompleted] ∧
    ([Event.sleep 9, Event.setState TaskState.Completed,
        Event.incCompleted].count Event.incCompleted = 1 ∧
      plainRunW1.tasks_completed = plainRunW.tasks_completed + 1 ∧
      (([Event.sleep 9, Event.setState TaskState.Completed,
          Event.incCompleted].count Event.incStolen = 1 ∧
          plainRunW1.tasks_stolen = plainRunW.tasks_stolen + 1 ∧
          Event.setState TaskState.Stolen ∈
            [Event.sleep 9, Event.setState TaskState.Completed, Event.incCompleted]) ∨
        ([Event.sleep 9, Event.setState TaskState.Completed,
          Event.incCompleted].count Event.incStolen = 0 ∧
          plainRunW1.tasks_stolen = plainRunW.tasks_stolen ∧
          Event.setState TaskState.Stolen ∉
            [Event.sleep 9, Event.setState TaskState.Completed, Event.incCompleted]))) :=
  ⟨by decide,
   per_task_counter_increments plainRunW plainRunW1 ⟨6, 1, 9, TaskState.Completed⟩
     [Event.sleep 9, Event.setState TaskState.Completed, Event.incCompleted] (by decide)⟩

/-- C7 counterexample: execute_task on a concrete ready task does not produce
the claimed effect sequence starting with a write of the Running state; no
write of the Running state occurs at all. -/
theorem execute_task_never_sets_running :
    (execute_task readyTask).2 ≠
      [Event.setState TaskState.Running, Event.sleep 5, Event.setState TaskState.Completed,
        Event.incCompleted] ∧
    Event.setState TaskState.Running ∉ (execute_task readyTask).2 ∧
    (execute_task readyTask).2 =
      [Event.sleep 5, Event.setState TaskState.Completed, Event.incCompleted] := by decide

/-- C7 (amended): for every task executed by a worker, execute_task blocks for
the cost of the task, then sets its state to Completed, then increments the
completed counter by one; the state is never set to Running, and in a full loop
iteration the only effects preceding that sequence are the Stolen marking and
the stolen-counter increment of a stolen task. -/
theorem execute_task_effect_order (w w1 : Worker) (t : Task) (evs : List Event)
    (h : runIteration w = IterResult.continued w1 t evs) :
    (∀ u : Task, execute_task u =
      ({ u with state := TaskState.Completed },
        [Event.sleep u.work_units, Event.setState TaskState.Completed, Event.incCompleted])) ∧
    Event.setState TaskState.Running ∉ evs ∧
    t.state = TaskState.Completed ∧
    (evs = [Event.sleep t.work_units, Event.setState TaskState.Completed, Event.incCompleted] ∨
     evs = [Event.setState TaskState.Stolen, Event.incStolen, Event.sleep t.work_units,
            Event.setState TaskState.Completed, Event.incCompleted]) := by
  rcases runIteration_continued w w1 t evs h with
    ⟨t0, others1, hsteal, hid, hsz, ht, hw1, hevs⟩ | ⟨t0, lq1, hpop, ht, hw1, hevs⟩
  · subst ht
    subst hevs
    exact ⟨fun u => rfl, by simp, rfl, Or.inr rfl⟩
  · subst ht
    subst hevs
    exact ⟨fun u => rfl, by simp, rfl, Or.inl rfl⟩

/-- Witness for the amended C7 at a concrete stolen execution. -/
theorem execute_task_effect_order_witness :
    runIteration ⟨1, ⟨[], 0⟩, [⟨[⟨11, 0, 6, TaskState.Ready⟩], 1⟩], 0, 0, 1⟩ =
      IterResult.continued ⟨1, ⟨[], 0⟩, [⟨[], 0⟩], 1, 1, 1⟩ ⟨11, 0, 6, TaskState.Completed⟩
        [Event.setState TaskState.Stolen, Event.incStolen, Event.sleep 6,
          Event.setState TaskState.Completed, Event.incCompleted] ∧
    ((∀ u : Task, execute_task u =
        ({ u with state := TaskState.Completed },
          [Event.sleep u.work_units, Event.setState TaskState.Completed, Event.incCompleted])) ∧
      Event.setState TaskState.Running ∉
        [Event.setState TaskState.Stolen, Event.incStolen, Event.sleep 6,
          Event.setState TaskState.Completed, Event.incCompleted] ∧
      (Task.mk 11 0 6 TaskState.Completed).state = TaskState.Completed ∧
      ([Event.setState TaskState.Stolen, Event.incStolen, Event.sleep 6,
          Event.setState TaskState.Completed, Event.incCompleted] =
          [Event.sleep (Task.mk 11 0 6 TaskState.Completed).work_units,
            Event.setState TaskState.Completed, Event.incCompleted] ∨
       [Event.setState TaskState.Stolen, Event.incStolen, Event.sleep 6,
          Event.setState TaskState.Completed, Event.incCompleted] =
          [Event.setState TaskState.Stolen, Event.incStolen,
            Event.sleep (Task.mk 11 0 6 TaskState.Completed).work_units,
            Event.setState TaskState.Completed, Event.incCompleted])) :=
  ⟨by decide,
   execute_task_effect_order ⟨1, ⟨[], 0⟩, [⟨[⟨11, 0, 6, TaskState.Ready⟩], 1⟩], 0, 0, 1⟩
     ⟨1, ⟨[], 0⟩, [⟨[], 0⟩], 1, 1, 1⟩ ⟨11, 0, 6, TaskState.Completed⟩
     [Event.setState TaskState.Stolen, Event.incStolen, Event.sleep 6,
       Event.setState TaskState.Completed, Event.incCompleted] (by decide)⟩

/-- Computation rule for queuesM on a cons. -/
theorem queuesM_cons (q : List Nat) (l : List (List Nat)) :
    queuesM (q :: l) = (q : Multiset Nat) + queuesM l := by
  simp [queuesM]

/-- Replacing entry j of a queue list exchanges its contribution to the id
multiset. -/
theorem queuesM_set (l : List (List Nat)) (j : Nat) (qj q : List Nat)
    (h : l[j]? = some qj) :
    queuesM (l.set j q) + (qj : Multiset Nat) = queuesM l + (q : Multiset Nat) := by
  induction l generalizing j with
  | nil => simp at h
  | cons a t ih =>
    cases j with
    | zero =>
      simp at h
      subst h
      simp only [List.set_cons_zero, queuesM_cons]
      abel
    | succ j =>
      simp only [List.getElem?_cons_succ] at h
      have e := ih j h
      simp only [List.set_cons_succ, queuesM_cons]
      rw [add_assoc, e, ← add_assoc]

/-- Removing one id from the front or the back of entry j of a queue list
removes exactly that id from the id multiset. -/
theorem queuesM_remove_one (l : List (List Nat)) (j : Nat) (qj qrem : List Nat) (tid : Nat)
    (h : l[j]? = some qj) (hsplit : (qj : Multiset Nat) = (qrem : Multiset Nat) + {tid}) :
    queuesM l = queuesM (l.set j qrem) + {tid} := by
  have e := queuesM_set l j qj qrem h
  rw [hsplit] at e
  have e2 : (queuesM (l.set j qrem) + {tid}) + (qrem : Multiset Nat) =
      queuesM l + (qrem : Multiset Nat) := by
    rw [← e]
    abel
  exact (add_right_cancel e2).symm

/-- A queue list whose entries are all empty contributes no ids. -/
theorem queuesM_eq_zero (l : List (List Nat))
    (h : ∀ j : Nat, j < l.length → l[j]? = some []) : queuesM l = 0 := by
  induction l with
  | nil => rfl
  | cons q t ih =>
    have h0 := h 0 (by simp)
    simp at h0
    subst h0
    rw [queuesM_cons]
    have ht := ih (fun j hj => by simpa using h (j + 1) (by simpa using Nat.succ_lt_succ hj))
    simp [ht]

/-- The id multiset of the flattened queue list is queuesM. -/
theorem coe_flatten (l : List (List Nat)) :
    ((l.flatten : List Nat) : Multiset Nat) = queuesM l := by
  induction l with
  | nil => rfl
  | cons q t ih =>
    rw [List.flatten_cons, queuesM_cons, ← ih]
    exact_mod_cast rfl

/-- Computation rule for heldIds on an idle head. -/
theorem heldIds_cons_idle (ws : List WStatus) :
    heldIds (WStatus.idle :: ws) = heldIds ws := by
  simp [heldIds, List.filterMap_cons]

/-- Computation rule for heldIds on an exited head. -/
theorem heldIds_cons_exited (ws : List WStatus) :
    heldIds (WStatus.exited :: ws) = heldIds ws := by
  simp [heldIds, List.filterMap_cons]

/-- Computation rule for heldIds on an executing head. -/
theorem heldIds_cons_exec (tid : Nat) (ws : List WStatus) :
    heldIds (WStatus.executing tid :: ws) = tid :: heldIds ws := by
  simp [heldIds, List.filterMap_cons]

/-- Marking an idle worker as executing a task adds that task id to the held
multiset. -/
theorem heldIds_set_executing (ws : List WStatus) (w tid : Nat)
    (h : ws[w]? = some WStatus.idle) :
    (heldIds (ws.set w (WStatus.executing tid)) : Multiset Nat) =
      (heldIds ws : Multiset Nat) + {tid} := by
  induction ws generalizing w with
  | nil => simp at h
  | cons st rest ih =>
    cases w with
    | zero =>
      simp at h
      subst h
      rw [List.set_cons_zero, heldIds_cons_exec, heldIds_cons_idle,
        ← Multiset.cons_coe, ← Multiset.singleton_add, add_comm]
    | succ w =>
      simp only [List.getElem?_cons_succ] at h
      rw [List.set_cons_succ]
      cases st with
      | idle => rw [heldIds_cons_idle, heldIds_cons_idle, ih w h]
      | exited => rw [heldIds_cons_exited, heldIds_cons_exited, ih w h]
      | executing tid0 =>
        rw [heldIds_cons_exec, heldIds_cons_exec, ← Multiset.cons_coe, ← Multiset.cons_coe,
          ih w h, Multiset.cons_add]

/-- Marking an executing worker as idle removes its task id from the held
multiset. -/
theorem heldIds_set_idle (ws : List WStatus) (w tid : Nat)
    (h : ws[w]? = some (WStatus.executing tid)) :
    (heldIds ws : Multiset Nat) =
      (heldIds (ws.set w WStatus.idle) : Multiset Nat) + {tid} := by
  induction ws generalizing w with
  | nil => simp at h
  | cons st rest ih =>
    cases w with
    | zero =>
      simp at h
      subst h
      rw [List.set_cons_zero, heldIds_cons_exec, heldIds_cons_idle,
        ← Multiset.cons_coe, ← Multiset.singleton_add, add_comm]
    | succ w =>
      simp only [List.getElem?_cons_succ] at h
      rw [List.set_cons_succ]
      cases st with
      | idle => rw [heldIds_cons_idle, heldIds_cons_idle, ih w h]
      | exited => rw [heldIds_cons_exited, heldIds_cons_exited, ih w h]
      | executing tid0 =>
        rw [heldIds_cons_exec, heldIds_cons_exec, ← Multiset.cons_coe, ← Multiset.cons_coe,
          ih w h, Multiset.cons_add]

/-- Marking an idle worker as exited leaves the held ids unchanged. -/
theorem heldIds_set_exited (ws : List WStatus) (w : Nat)
    (h : ws[w]? = some WStatus.idle) :
    heldIds (ws.set w WStatus.exited) = heldIds ws := by
  induction ws generalizing w with
  | nil => simp at h
  | cons st rest ih =>
    cases w with
    | zero =>
      simp at h
      subst h
      rw [List.set_cons_zero, heldIds_cons_exited, heldIds_cons_idle]
    | succ w =>
      simp only [List.getElem?_cons_succ] at h
      rw [List.set_cons_succ]
      cases st with
      | idle => rw [heldIds_cons_idle, heldIds_cons_idle, ih w h]
      | exited => rw [heldIds_cons_exited, heldIds_cons_exited, ih w h]
      | executing tid0 => rw [heldIds_cons_exec, heldIds_cons_exec, ih w h]

/-- A worker list with every entry exited holds no tasks. -/
theorem heldIds_eq_nil (ws : List WStatus)
    (h : ∀ i : Nat, i < ws.length → ws[i]? = some WStatus.exited) :
    heldIds ws = [] := by
  induction ws with
  | nil => rfl
  | cons st rest ih =>
    have h0 := h 0 (by simp)
    simp at h0
    subst h0
    rw [heldIds_cons_exited]
    exact ih (fun i hi => by simpa using h (i + 1) (by simpa using Nat.succ_lt_succ hi))

/-- The initial worker list holds no tasks. -/
theorem heldIds_replicate (n : Nat) : heldIds (List.replicate n WStatus.idle) = [] := by
  induction n with
  | zero => rfl
  | succ n ih => rw [List.replicate_succ, heldIds_cons_idle, ih]

/-- An exited entry of a worker list updated at w with a non-exited status was
already exited before the update, at a position other than w. -/
theorem exited_of_set (ws : List WStatus) (w : Nat) (st : WStatus) (i : Nat)
    (hst : st ≠ WStatus.exited)
    (h : (ws.set w st)[i]? = some WStatus.exited) :
    ws[i]? = some WStatus.exited ∧ i ≠ w := by
  by_cases hiw : i = w
  · subst hiw
    rcases Nat.lt_or_ge i ws.length with hlt | hge
    · rw [List.getElem?_set_self hlt] at h
      injection h with h
      exact absurd h hst
    · have hnone : (ws.set i st)[i]? = none := by
        apply List.getElem?_eq_none
        simpa using hge
      rw [hnone] at h
      cases h
  · rw [List.getElem?_set_ne (fun he => hiw he.symm)] at h
    exact ⟨h, hiw⟩

/-- Computation rule: finishedIds of a one-label trace. -/
theorem finishedIds_single_pop (w tid : Nat) : finishedIds [Label.popL w tid] = [] := rfl

/-- Computation rule: a trace splits at its head label. -/
theorem finishedIds_cons (l : Label) (tr : List Label) :
    finishedIds (l :: tr) = finishedIds [l] ++ finishedIds tr := by
  cases l <;> simp [finishedIds, List.filterMap_cons]

/-- Every atomic step preserves the run invariant, extending the finished list
by the ids finished during the step. -/
theorem step_preserves {M0 : Multiset Nat} {n total0 : Nat} {fin : List Nat}
    {s s1 : SchedState} {l : Label}
    (hstep : Step s l s1) (hinv : SchedInv M0 n total0 fin s) :
    SchedInv M0 n total0 (fin ++ finishedIds [l]) s1 := by
  obtain ⟨qlen, wlen, htotal, conserve, hcompleted, hexited, hstolen1, hsum⟩ := hinv
  cases hstep with
  | pop w tid front hidle hq =>
    have hqrem : queuesM s.queues = queuesM (s.queues.set w front) + {tid} :=
      queuesM_remove_one s.queues w (front ++ [tid]) front tid hq (by exact_mod_cast rfl)
    have hnoexit : ∀ i : Nat, s.workers[i]? = some WStatus.exited → False := by
      intro i hi
      have hwlt : w < s.queues.length := by
        by_contra hge
        have hnone : s.queues[w]? = none := List.getElem?_eq_none (by omega)
        rw [hnone] at hq
        cases hq
      have hiw : i ≠ w := by
        intro he
        subst he
        rw [hi] at hidle
        cases hidle
      have hjw := hexited i hi w hwlt (fun he => hiw he.symm)
      rw [hq] at hjw
      simp at hjw
    refine ⟨?_, ?_, htotal, ?_, ?_, ?_, hstolen1, ?_⟩
    · simpa using qlen
    · simpa using wlen
    · show M0 = _
      rw [conserve, hqrem, heldIds_set_executing s.workers w tid hidle]
      have hfin : finishedIds [Label.popL w tid] = [] := rfl
      rw [hfin, List.append_nil]
      abel
    · have hfin : finishedIds [Label.popL w tid] = [] := rfl
      rw [hfin, List.append_nil]
      exact hcompleted
    · intro i hi
      exact absurd (hnoexit i (exited_of_set s.workers w (WStatus.executing tid) i (by simp) hi).1)
        not_false
    · intro hex
      obtain ⟨i, hi⟩ := hex
      exact absurd (hnoexit i (exited_of_set s.workers w (WStatus.executing tid) i (by simp) hi).1)
        not_false
  | steal w src tid rest hidle hw0 hempty hne hsrc =>
    have hqrem : queuesM s.queues = queuesM (s.queues.set src rest) + {tid} :=
      queuesM_remove_one s.queues src (tid :: rest) rest tid hsrc
        (by rw [← Multiset.cons_coe, ← Multiset.singleton_add, add_comm])
    refine ⟨?_, ?_, htotal, ?_, ?_, ?_, ?_, ?_⟩
    · simpa using qlen
    · simpa using wlen
    · show M0 = _
      rw [conserve, hqrem, heldIds_set_executing s.workers w tid hidle]
      have hfin : finishedIds [Label.stealL w src tid] = [] := rfl
      rw [hfin, List.append_nil]
      abel
    · have hfin : finishedIds [Label.stealL w src tid] = [] := rfl
      rw [hfin, List.append_nil]
      exact hcompleted
    · intro i hi j hjlen hji
      have hold := exited_of_set s.workers w (WStatus.executing tid) i (by simp) hi
      have hjlen0 : j < s.queues.length := by simpa using hjlen
      by_cases hjsrc : j = src
      · subst hjsrc
        exfalso
        have hje := hexited i hold.1 j hjlen0 hji
        rw [hsrc] at hje
        simp at hje
      · show (s.queues.set src rest)[j]? = some []
        rw [List.getElem?_set_ne (fun he => hjsrc he.symm)]
        exact hexited i hold.1 j hjlen0 hji
    · intro hn
      exfalso
      have hsrclt : src < s.queues.length := by
        by_contra hge
        have hnone : s.queues[src]? = none := List.getElem?_eq_none (by omega)
        rw [hnone] at hsrc
        cases hsrc
      have hwlt : w < s.queues.length := by
        by_contra hge
        have hnone : s.queues[w]? = none := List.getElem?_eq_none (by omega)
        rw [hnone] at hempty
        cases hempty
      rw [qlen] at hsrclt hwlt
      omega
    · intro hex
      obtain ⟨i, hi⟩ := hex
      have hold := exited_of_set s.workers w (WStatus.executing tid) i (by simp) hi
      have hle := hsum ⟨i, hold.1⟩
      show s.total ≤ s.completed + (s.stolen + 1)
      omega
  | finish w tid hexec =>
    refine ⟨qlen, ?_, htotal, ?_, ?_, ?_, hstolen1, ?_⟩
    · simpa using wlen
    · show M0 = _
      rw [conserve, heldIds_set_idle s.workers w tid hexec]
      have hfin : finishedIds [Label.finishL w tid] = [tid] := rfl
      rw [hfin]
      have hcoe : ((fin ++ [tid] : List Nat) : Multiset Nat) =
          (fin : Multiset Nat) + {tid} := by
        exact_mod_cast rfl
      rw [hcoe]
      abel
    · show s.completed + 1 = _
      have hfin : finishedIds [Label.finishL w tid] = [tid] := rfl
      rw [hfin, List.length_append, hcompleted]
      rfl
    · intro i hi
      have hold := exited_of_set s.workers w WStatus.idle i (by simp) hi
      exact hexited i hold.1
    · intro hex
      obtain ⟨i, hi⟩ := hex
      have hold := exited_of_set s.workers w WStatus.idle i (by simp) hi
      have hle := hsum ⟨i, hold.1⟩
      show s.total ≤ s.completed + 1 + s.stolen
      omega
  | exitLoop w hidle hcond =>
    refine ⟨qlen, ?_, htotal, ?_, ?_, ?_, hstolen1, ?_⟩
    · simpa using wlen
    · show M0 = _
      rw [heldIds_set_exited s.workers w hidle]
      have hfin : finishedIds [Label.exitL w] = [] := rfl
      rw [hfin, List.append_nil]
      exact conserve
    · have hfin : finishedIds [Label.exitL w] = [] := rfl
      rw [hfin, List.append_nil]
      exact hcompleted
    · intro i hi j hjlen hji
      by_cases hiw : i = w
      · subst hiw
        exact hcond.2 j (by simpa using hjlen) hji
      · have hie : s.workers[i]? = some WStatus.exited := by
          rw [List.getElem?_set_ne (fun he => hiw he.symm)] at hi
          exact hi
        exact hexited i hie j (by simpa using hjlen) hji
    · intro hex2
      exact hcond.1

/-- The invariant propagates along every trace. -/
theorem trace_preserves {M0 : Multiset Nat} {n total0 : Nat}
    {s s2 : SchedState} {tr : List Label} (htr : Trace s tr s2) :
    ∀ fin : List Nat, SchedInv M0 n total0 fin s →
      SchedInv M0 n total0 (fin ++ finishedIds tr) s2 := by
  induction htr with
  | nil s =>
    intro fin h
    have hfin : finishedIds [] = ([] : List Nat) := rfl
    rw [hfin, List.append_nil]
    exact h
  | cons hstep htr2 ih =>
    intro fin h
    have h1 := step_preserves hstep h
    have h2 := ih _ h1
    rw [finishedIds_cons, ← List.append_assoc]
    exact h2

/-- C2: for every run of the interleaved scheduler model starting from a valid
initial state, if every worker thread has exited then the completed counter
equals the total counter, and the multiset of task ids executed to completion
during the run is exactly the multiset of submitted task ids: every submitted
task was executed exactly once, none twice, none dropped. -/
theorem scheduler_conservation (s0 sF : SchedState) (tr : List Label)
    (hinit : SchedInit s0) (htr : Trace s0 tr sF)
    (hall : ∀ w : Nat, w < sF.workers.length → sF.workers[w]? = some WStatus.exited) :
    sF.completed = sF.total ∧
    (finishedIds tr : Multiset Nat) = (s0.queues.flatten : Multiset Nat) := by
  obtain ⟨hw, hc0, hs0, ht0⟩ := hinit
  have hinv0 : SchedInv (s0.queues.flatten : Multiset Nat) s0.queues.length s0.total [] s0 := by
    refine ⟨rfl, by rw [hw]; simp, rfl, ?_, by rw [hc0]; rfl, ?_, ?_, ?_⟩
    · rw [hw, heldIds_replicate, coe_flatten]
      simp
    · intro i hi
      exfalso
      rw [hw] at hi
      rcases Nat.lt_or_ge i s0.queues.length with hlt | hge
      · rw [List.getElem?_replicate_of_lt hlt] at hi
        cases hi
      · have hnone : (List.replicate s0.queues.length WStatus.idle)[i]? = none :=
          List.getElem?_eq_none (by simpa using hge)
        rw [hnone] at hi
        cases hi
    · intro _
      exact hs0
    · intro hex
      exfalso
      obtain ⟨i, hi⟩ := hex
      rw [hw] at hi
      rcases Nat.lt_or_ge i s0.queues.length with hlt | hge
      · rw [List.getElem?_replicate_of_lt hlt] at hi
        cases hi
      · have hnone : (List.replicate s0.queues.length WStatus.idle)[i]? = none :=
          List.getElem?_eq_none (by simpa using hge)
        rw [hnone] at hi
        cases hi
  have hinvF := trace_preserves htr [] hinv0
  obtain ⟨qlen, wlen, htotal, conserve, hcompleted, hexitedF, hstolen1, hsumF⟩ := hinvF
  rw [List.nil_append] at conserve hcompleted
  have hheld : heldIds sF.workers = [] := heldIds_eq_nil sF.workers hall
  have hcard0 : Multiset.card ((s0.queues.flatten : List Nat) : Multiset Nat) = s0.total := by
    rw [Multiset.coe_card, ht0]
  have hQ : queuesM sF.queues = 0 := by
    rcases Nat.lt_or_ge sF.queues.length 2 with hn2 | hn2
    · rcases Nat.eq_zero_or_pos sF.queues.length with h0 | h1
      · apply queuesM_eq_zero
        intro j hj
        omega
      · have hex0 : sF.workers[0]? = some WStatus.exited := hall 0 (by omega)
        have hts := hsumF ⟨0, hex0⟩
        have hst0 : sF.stolen = 0 := hstolen1 (by omega)
        have hcards := congrArg Multiset.card conserve
        rw [Multiset.card_add, Multiset.card_add, Multiset.coe_card, Multiset.coe_card,
          hheld] at hcards
        simp only [Multiset.coe_card, List.length_nil] at hcards
        have hqcard : Multiset.card (queuesM sF.queues) = 0 := by omega
        exact Multiset.card_eq_zero.mp hqcard
    · apply queuesM_eq_zero
      intro j hj
      by_cases hj0 : j = 0
      · exact hexitedF 1 (hall 1 (by omega)) j hj (by omega)
      · exact hexitedF 0 (hall 0 (by omega)) j hj hj0
  have hM : (finishedIds tr : Multiset Nat) = ((s0.queues.flatten : List Nat) : Multiset Nat) := by
    rw [conserve, hheld, hQ]
    simp
  constructor
  · rw [hcompleted, htotal]
    have hlen := congrArg Multiset.card hM
    rw [Multiset.coe_card, Multiset.coe_card, ← ht0] at hlen
    exact hlen
  · exact hM

/-- For a nonzero worker id, steal_task is the candidate scan applied to the
whole other_queues list: the special-cased first queue behaves exactly like one
scan step. -/
theorem steal_task_eq_stealScan (wid : Nat) (lq : WorkStealingDeque)
    (qs : List WorkStealingDeque) (hw : wid ≠ 0) :
    steal_task wid lq qs = stealScan lq qs := by
  unfold steal_task
  rw [if_neg hw]
  cases qs with
  | nil => rfl
  | cons q0 rest => rfl

/-- Under the size invariant a candidate passing the imbalance check is
non-empty, so its steal succeeds and the code scan agrees with the first-match
specification scan. -/
theorem stealScan_eq_specOrder (lq : WorkStealingDeque) (qs : List WorkStealingDeque)
    (hinv : ∀ q ∈ qs, q.inv) : stealScan lq qs = stealSpecOrder lq qs := by
  induction qs with
  | nil => rfl
  | cons q rest ih =>
    have hq := hinv q (List.mem_cons_self q rest)
    have hrest : ∀ p ∈ rest, p.inv := fun p hp => hinv p (List.mem_cons_of_mem q hp)
    by_cases himb : lq.size + min_imbalance < q.size
    · cases htq : q.tasks with
      | nil =>
        exfalso
        unfold WorkStealingDeque.inv at hq
        rw [htq] at hq
        simp at hq
        rw [hq] at himb
        omega
      | cons a l2 =>
        have hsteal : q.steal = (some a, ⟨l2, q.size - 1⟩) := by
          unfold WorkStealingDeque.steal
          rw [htq]
        simp only [stealScan, stealSpecOrder]
        rw [if_pos himb, if_pos himb, hsteal]
    · simp only [stealScan, stealSpecOrder]
      rw [if_neg himb, if_neg himb, ih hrest]

/-- A successful specification scan takes the front task of the first candidate
passing the imbalance check, leaving all earlier candidates untouched and
unqualified. -/
theorem stealSpecOrder_some (lq : WorkStealingDeque) (qs : List WorkStealingDeque)
    (hinv : ∀ q ∈ qs, q.inv) (t : Task) (qs1 : List WorkStealingDeque)
    (h : stealSpecOrder lq qs = some (t, qs1)) :
    ∃ (j : Nat) (qj : WorkStealingDeque), qs[j]? = some qj ∧
      lq.size + min_imbalance < qj.size ∧
      (∀ (k : Nat) (qk : WorkStealingDeque), k < j → qs[k]? = some qk →
        ¬ lq.size + min_imbalance < qk.size) ∧
      qj.tasks.head? = some t ∧
      qs1 = qs.set j qj.steal.2 := by
  induction qs generalizing qs1 with
  | nil => simp [stealSpecOrder] at h
  | cons q rest ih =>
    have hq := hinv q (List.mem_cons_self q rest)
    have hrest : ∀ p ∈ rest, p.inv := fun p hp => hinv p (List.mem_cons_of_mem q hp)
    by_cases himb : lq.size + min_imbalance < q.size
    · cases htq : q.tasks with
      | nil =>
        exfalso
        unfold WorkStealingDeque.inv at hq
        rw [htq] at hq
        simp at hq
        rw [hq] at himb
        omega
      | cons a l2 =>
        have hsteal : q.steal = (some a, ⟨l2, q.size - 1⟩) := by
          unfold WorkStealingDeque.steal
          rw [htq]
        simp only [stealSpecOrder] at h
        rw [if_pos himb, hsteal] at h
        injection h with h
        injection h with h1 h2
        refine ⟨0, q, by simp, himb, ?_, ?_, ?_⟩
        · intro k qk hk hqk
          omega
        · rw [htq, List.head?_cons, h1]
        · rw [List.set_cons_zero, hsteal, ← h2]
    · simp only [stealSpecOrder] at h
      rw [if_neg himb] at h
      cases hrec : stealSpecOrder lq rest with
      | none =>
        rw [hrec] at h
        cases h
      | some p =>
        obtain ⟨t0, rest1⟩ := p
        rw [hrec] at h
        injection h with h
        injection h with h1 h2
        have hrec2 : stealSpecOrder lq rest = some (t, rest1) := by
          rw [← h1]
          exact hrec
        obtain ⟨j, qj, hj, himbj, hmin, hhead, hset⟩ := ih hrest rest1 hrec2
        refine ⟨j + 1, qj, by simpa using hj, himbj, ?_, hhead, ?_⟩
        · intro k qk hk hqk
          cases k with
          | zero =>
            simp at hqk
            rw [← hqk]
            exact himb
          | succ k =>
            simp only [List.getElem?_cons_succ] at hqk
            exact hmin k qk (by omega) hqk
        · rw [← h2, List.set_cons_succ, hset]
  
/-- A failed specification scan means no candidate passed the imbalance
check. -/
theorem stealSpecOrder_none (lq : WorkStealingDeque) (qs : List WorkStealingDeque)
    (hinv : ∀ q ∈ qs, q.inv) (h : stealSpecOrder lq qs = none) :
    ∀ q ∈ qs, ¬ lq.size + min_imbalance < q.size := by
  induction qs with
  | nil =>
    intro q hq
    cases hq
  | cons q rest ih =>
    have hq := hinv q (List.mem_cons_self q rest)
    have hrest : ∀ p ∈ rest, p.inv := fun p hp => hinv p (List.mem_cons_of_mem q hp)
    by_cases himb : lq.size + min_imbalance < q.size
    · exfalso
      cases htq : q.tasks with
      | nil =>
        unfold WorkStealingDeque.inv at hq
        rw [htq] at hq
        simp at hq
        rw [hq] at himb
        omega
      | cons a l2 =>
        have hsteal : q.steal = (some a, ⟨l2, q.size - 1⟩) := by
          unfold WorkStealingDeque.steal
          rw [htq]
        simp only [stealSpecOrder] at h
        rw [if_pos himb, hsteal] at h
        cases h
    · intro p hp
      rcases List.mem_cons.mp hp with heq | hmem
      · rw [heq]
        exact himb
      · simp only [stealSpecOrder] at h
        rw [if_neg himb] at h
        cases hrec : stealSpecOrder lq rest with
        | none => exact ih hrest hrec p hmem
        | some pr =>
          obtain ⟨t0, rest1⟩ := pr
          rw [hrec] at h
          cases h

/-- The first index of the peer wiring of a nonzero worker is queue 0. -/
theorem otherQueueIdx_head (n wid : Nat) (h0 : 0 < wid) (hn : wid < n) :
    (otherQueueIdx n wid).head? = some 0 := by
  unfold otherQueueIdx
  cases n with
  | zero => omega
  | succ m =>
    rw [List.range_succ_eq_map, List.filter_cons]
    have hne : (0 != wid) = true := by
      rw [bne_iff_ne]
      exact Nat.ne_of_lt h0
    rw [if_pos hne]
    rfl

/-- The peer wiring lists queue indices in increasing order. -/
theorem otherQueueIdx_sorted (n wid : Nat) : List.Sorted (· < ·) (otherQueueIdx n wid) := by
  apply List.Pairwise.filter
  exact List.pairwise_lt_range n

/-- The peer wiring of a worker skips its own queue. -/
theorem otherQueueIdx_not_mem (n wid : Nat) : wid ∉ otherQueueIdx n wid := by
  unfold otherQueueIdx
  simp [List.mem_filter]

/-- C5: for every nonzero worker, the peer wiring tries the queue of worker 0
first and then the remaining peers in increasing index order skipping itself,
and steal_task is the first-match scan: a steal from a candidate is attempted
exactly when its observed size strictly exceeds the local size plus the
imbalance threshold min_imbalance, which is 0, so any strictly positive
imbalance qualifies. -/
theorem steal_order_spec (wid n : Nat) (lq : WorkStealingDeque)
    (qs : List WorkStealingDeque) (hw : wid ≠ 0) (hinv : ∀ q ∈ qs, q.inv) :
    StealOrderConcl wid n lq qs := by
  refine ⟨⟨?_, otherQueueIdx_sorted n wid, otherQueueIdx_not_mem n wid⟩, rfl, ?_, ?_, ?_⟩
  · intro h0 hn
    exact otherQueueIdx_head n wid h0 hn
  · rw [steal_task_eq_stealScan wid lq qs hw, stealScan_eq_specOrder lq qs hinv]
  · intro t qs1 h
    exact stealSpecOrder_some lq qs hinv t qs1 h
  · intro h
    exact stealSpecOrder_none lq qs hinv h

/-- Witness for C5 at a concrete nonzero worker and peer list. -/
theorem steal_order_spec_witness :
    ((1 : Nat) ≠ 0 ∧ ∀ q ∈ stealQs, q.inv) ∧
    StealOrderConcl 1 3 WorkStealingDeque.new stealQs :=
  ⟨⟨by decide, by decide⟩,
   steal_order_spec 1 3 WorkStealingDeque.new stealQs (by decide) (by decide)⟩

/-- C4: the exit check never inspects the local queue of the worker running it;
there is a worker view whose exit check passes while its own local queue is
non-empty (the stolen task is counted both by completed and by stolen), and in
the interleaved model a reachable three-step run ends with worker 0 exited
while its own queue still holds task 20. -/
theorem exit_check_ignores_own_queue :
    (∀ (w : Worker) (lq1 lq2 : WorkStealingDeque),
      Worker.all_work_complete { w with local_queue := lq1 } =
        Worker.all_work_complete { w with local_queue := lq2 }) ∧
    (exitingWorker.all_work_complete = true ∧ exitingWorker.local_queue.tasks ≠ [] ∧
      runIteration exitingWorker = IterResult.exited) ∧
    (Trace leakInit [Label.stealL 1 0 10, Label.finishL 1 10, Label.exitL 0] leakFinal ∧
      leakFinal.workers[0]? = some WStatus.exited ∧
      leakFinal.queues[0]? = some [20] ∧ (20 : Nat) ∈ leakFinal.queues.flatten) := by
  refine ⟨fun w lq1 lq2 => rfl, by decide, ?_, by decide, by decide, by decide⟩
  exact
    Trace.cons (Step.steal leakInit 1 0 10 [20] (by decide) (by decide) (by decide)
        (by decide) (by decide))
      (Trace.cons (Step.finish leakMid1 1 10 (by decide))
        (Trace.cons (Step.exitLoop leakMid2 0 (by decide) (by decide))
          (Trace.nil leakFinal)))

/-- C6: worker 0 never steals.  steal_task for id 0 is none and does not touch
any queue; an iteration of the loop of a worker with id 0 that processes a task
never emits a stolen-counter increment and leaves the stolen counter unchanged;
and in every trace of the interleaved model every steal label has a nonzero
stealer. -/
theorem worker_zero_never_steals :
    (∀ (lq : WorkStealingDeque) (oqs : List WorkStealingDeque), steal_task 0 lq oqs = none) ∧
    (∀ (w w1 : Worker) (t : Task) (evs : List Event), w.id = 0 →
      runIteration w = IterResult.continued w1 t evs →
      Event.incStolen ∉ evs ∧ w1.tasks_stolen = w.tasks_stolen) ∧
    (∀ (s0 sF : SchedState) (tr : List Label), Trace s0 tr sF →
      ∀ w src tid, Label.stealL w src tid ∈ tr → w ≠ 0) := by
  refine ⟨?_, ?_, ?_⟩
  · intro lq oqs
    simp [steal_task]
  · intro w w1 t evs h0 h
    rcases runIteration_continued w w1 t evs h with
      ⟨t0, others1, hsteal, hid, hsz, ht, hw1, hevs⟩ | ⟨t0, lq1, hpop, ht, hw1, hevs⟩
    · exact absurd h0 hid
    · subst hevs
      subst hw1
      exact ⟨by simp, rfl⟩
  · intro s0 sF tr htr
    induction htr with
    | nil s =>
      intro w src tid hmem
      cases hmem
    | cons hstep htr2 ih =>
      intro w src tid hmem
      rcases List.mem_cons.mp hmem with heq | hmem2
      · cases hstep with
        | pop w2 tid2 front hidle hq => exact Label.noConfusion heq
        | steal w2 src2 tid2 rest hidle hw0 hempty hne hsrc =>
          injection heq with h1 h2 h3
          rw [h1]
          exact hw0
        | finish w2 tid2 hexec => exact Label.noConfusion heq
        | exitLoop w2 hidle hcond => exact Label.noConfusion heq
      · exact ih w src tid hmem2

/-- Witness for C6 at a concrete one-step trace containing a steal by
worker 1. -/
theorem worker_zero_never_steals_witness :
    Trace stealDemoInit [Label.stealL 1 0 5] stealDemoNext ∧
    Label.stealL 1 0 5 ∈ [Label.stealL 1 0 5] ∧ (1 : Nat) ≠ 0 := by
  have htr : Trace stealDemoInit [Label.stealL 1 0 5] stealDemoNext :=
    Trace.cons (Step.steal stealDemoInit 1 0 5 [] (by decide) (by decide) (by decide)
        (by decide) (by decide))
      (Trace.nil stealDemoNext)
  exact ⟨htr, by decide,
    worker_zero_never_steals.2.2 stealDemoInit stealDemoNext [Label.stealL 1 0 5] htr
      1 0 5 (by decide)⟩

/-- Witness for C2 at a concrete one-worker one-task run. -/
theorem scheduler_conservation_witness :
    SchedInit soloInit ∧
    Trace soloInit [Label.popL 0 7, Label.finishL 0 7, Label.exitL 0] soloFinal ∧
    (∀ w : Nat, w < soloFinal.workers.length →
      soloFinal.workers[w]? = some WStatus.exited) ∧
    (soloFinal.completed = soloFinal.total ∧
      (finishedIds [Label.popL 0 7, Label.finishL 0 7, Label.exitL 0] : Multiset Nat) =
        (soloInit.queues.flatten : Multiset Nat)) := by
  have htr : Trace soloInit [Label.popL 0 7, Label.finishL 0 7, Label.exitL 0] soloFinal :=
    Trace.cons (Step.pop soloInit 0 7 [] (by decide) (by decide))
      (Trace.cons (Step.finish soloMid1 0 7 (by decide))
        (Trace.cons (Step.exitLoop soloMid2 0 (by decide) (by decide))
          (Trace.nil soloFinal)))
  exact ⟨⟨by decide, by decide, by decide, by decide⟩, htr, by decide,
    scheduler_conservation soloInit soloFinal [Label.popL 0 7, Label.finishL 0 7, Label.exitL 0]
      ⟨by decide, by decide, by decide, by decide⟩ htr (by decide)⟩

end WorkStealing

